import Mathlib

/-!
Verification development for the hx "thingy table" (src/thingy.c), the
definition-file loader, and the spec-described pattern compiler and edit
history (whose implementations are declared in the headers under
src/unnamed/ but are not part of the provided sources).

Modelling conventions:
* Bytes are `Nat` values (the C code indexes arrays by `unsigned char`,
  so all byte values that occur are `< 256`; no claim depends on wrap).
* C strings (values, definition lines) are null-free byte lists: a C
  string's content cannot contain the byte 0, and `strdup` copies the
  content exactly.
* Keys handed to `thingy_table_assign` are modelled as the byte list of
  the given `length`.  The node copy at src/thingy.c:76 is `strdup`,
  which coincides with this exactly when the key contains no interior
  null byte; `strdup` itself is modelled separately to analyse the keys
  for which the two differ (see the C1 and C3 theorems).
-/

namespace Thingy

/-- A chain node for multi-byte keys (struct linked_list, src/thingy.c:15-20);
the C `length` field always equals the stored key's length, so it is kept
implicit as `key.length`. -/
structure Node where
  key : List Nat
  value : List Nat
deriving DecidableEq, Repr

/-- The table (struct thingy_table, src/thingy.c:22-26): `longest` is
`longest_key`, `values` the 256 direct slots for single-byte keys
(`none` = NULL), `mbseqs` the per-first-byte chains. -/
structure Table where
  longest : Nat
  values : Nat → Option (List Nat)
  mbseqs : Nat → List Node

/-- thingy_table_init (src/thingy.c:28-32): the zeroed table. -/
def initTable : Table :=
  { longest := 0, values := fun _ => none, mbseqs := fun _ => [] }

/-- C strdup on a byte buffer: copies the bytes strictly before the first
null byte (src/thingy.c:43,48,65,76,77). -/
def strdup (s : List Nat) : List Nat :=
  s.takeWhile (fun c => c ≠ 0)

/-- The chain scan of thingy_table_assign (src/thingy.c:57-78): replace the
value in place at the first node with a matching key (the C guard is
length equality plus `memcmp`, i.e. key equality), else append a new node
at the end.  The Bool is true when a new node was appended.  The appended
node here holds the full assigned key; the C copy at src/thingy.c:76 is
`strdup`, which truncates at the first interior null byte - the
divergence the C1 and C3 theorems record. -/
def chainAssign (key val : List Nat) : List Node → List Node × Bool
  | [] => ([⟨key, val⟩], true)
  | n :: rest =>
    if n.key = key then (⟨n.key, val⟩ :: rest, false)
    else
      let r := chainAssign key val rest
      (n :: r.1, r.2)

/-- thingy_table_assign (src/thingy.c:34-82).  Returns the C return code
and the updated table.  Length 0 is rejected (code 1); length 1 writes the
direct slot; length ≥ 2 goes through the chain under `key[0]`.
`longest_key` is raised to the key length in the length-1 and append
branches (lines 44, 49, 79) and untouched in the replace-in-place branch
(line 66). -/
def assignT (t : Table) (key val : List Nat) : Nat × Table :=
  match key with
  | [] => (1, t)
  | [b] =>
    (0, { t with
          values := fun i => if i = b then some val else t.values i,
          longest := if t.longest < 1 then 1 else t.longest })
  | b :: _ :: _ =>
    let r := chainAssign key val (t.mbseqs b)
    if r.2 then
      (0, { t with
            mbseqs := fun i => if i = b then r.1 else t.mbseqs i,
            longest := if t.longest < key.length then key.length else t.longest })
    else
      (0, { t with mbseqs := fun i => if i = b then r.1 else t.mbseqs i })

/-- The chain scan of thingy_table_search (src/thingy.c:110-114): the value
of the first node with a matching key, if any. -/
def chainSearch (key : List Nat) : List Node → Option (List Nat)
  | [] => none
  | n :: rest => if n.key = key then some n.value else chainSearch key rest

/-- thingy_table_search (src/thingy.c:102-116): not-found (`none`, i.e.
NULL) for the empty key or when the length exceeds `longest_key`; direct
slot for length 1; chain scan under `key[0]` otherwise. -/
def searchT (t : Table) : List Nat → Option (List Nat)
  | [] => none
  | b :: rest =>
    if t.longest < (b :: rest).length then none
    else
      match rest with
      | [] => t.values b
      | _ :: _ => chainSearch (b :: rest) (t.mbseqs b)

/-- The chain scan of thingy_table_delete (src/thingy.c:130-145): unlink
the first node with a matching key; code 0 on a hit, 1 on a miss. -/
def chainDelete (key : List Nat) : List Node → Nat × List Node
  | [] => (1, [])
  | n :: rest =>
    if n.key = key then (0, rest)
    else
      let r := chainDelete key rest
      (r.1, n :: r.2)

/-- thingy_table_delete (src/thingy.c:118-146): code 1 for the empty key,
a length above `longest_key`, or an absent key; otherwise clears the
direct slot (length 1) or unlinks the chain node.  `longest_key` is never
touched. -/
def deleteT (t : Table) : List Nat → Nat × Table
  | [] => (1, t)
  | b :: rest =>
    if t.longest < (b :: rest).length then (1, t)
    else
      match rest with
      | [] =>
        match t.values b with
        | none => (1, t)
        | some _ => (0, { t with values := fun i => if i = b then none else t.values i })
      | _ :: _ =>
        let r := chainDelete (b :: rest) (t.mbseqs b)
        (r.1, { t with mbseqs := fun i => if i = b then r.2 else t.mbseqs i })

example : searchT ((assignT initTable [65] [120]).2) [65] = some [120] := by rfl
example : searchT ((assignT initTable [65, 66] [120]).2) [65, 66] = some [120] := by rfl
example : searchT ((deleteT ((assignT initTable [65] [120]).2) [65]).2) [65] = none := by rfl

/-- The hex-digit set of the strspn at src/thingy.c:165
("0123456789ABCDEFabcdef"). -/
def isHexDigit (c : Nat) : Bool :=
  (48 ≤ c && c ≤ 57) || (65 ≤ c && c ≤ 70) || (97 ≤ c && c ≤ 102)

/-- The hex-decoding loop of thingy_table_add_from_string
(src/thingy.c:170-183): a zeroed byte array of length `(n+1)/2` into which
each digit's nibble is ORed at offset `oi = i + n % 2`, so an odd digit
count is read left-padded with one 0 digit.  The three disjoint range
tests of lines 177-182 are merged into one nibble value (a non-digit
contributes 0, exactly as in the C where no branch fires). -/
def decodeKey (kp : List Nat) : List Nat :=
  let klenHex := kp.length
  let klen := (klenHex + 1) / 2
  (List.range klenHex).foldl
    (fun key i =>
      let oi := i + klenHex % 2
      let c := kp.getD i 0
      let nib :=
        if 48 ≤ c ∧ c ≤ 57 then c - 48
        else if 65 ≤ c ∧ c ≤ 70 then c + 10 - 65
        else if 97 ≤ c ∧ c ≤ 102 then c + 10 - 97
        else 0
      key.set (oi / 2) ((key.getD (oi / 2) 0) ||| (nib <<< (if oi % 2 = 1 then 0 else 4))))
    (List.replicate klen 0)

example : decodeKey [49, 50, 51] = [1, 35] := by decide
example : decodeKey [52, 49] = [65] := by decide

/-- thingy_table_add_from_string (src/thingy.c:148-200) on a null-free
line.  The two strtok calls are modelled by their effect on this input:
`strtok(sd, "=")` skips leading `'='` bytes and yields the token up to the
next `'='` (NULL when nothing remains); the later `strtok(NULL, "")`
yields the remainder after that `'='` when it is nonempty, else NULL.
`'/'` presets the value to the newline byte; `'*'` presets it to the C
literal "\0", whose string content is empty.  Returns the C return code
and the updated table; the delete path returns `16 + r` (line 194). -/
def addFromString (t : Table) (s : List Nat) : Nat × Table :=
  let s1 := s.dropWhile (fun c => c = 61)
  if s1.isEmpty then (1, t)
  else
    let keyHex := s1.takeWhile (fun c => c ≠ 61)
    let rest := s1.dropWhile (fun c => c ≠ 61)
    let valuePart : Option (List Nat) :=
      match rest with
      | [] => none
      | _ :: r => if r.isEmpty then none else some r
    let preset : Option (List Nat) :=
      if keyHex.headD 0 = 47 then some [10]
      else if keyHex.headD 0 = 42 then some []
      else none
    let kp := if keyHex.headD 0 = 47 ∨ keyHex.headD 0 = 42 then keyHex.tail else keyHex
    if (kp.takeWhile isHexDigit).length ≠ kp.length then (2, t)
    else
      let keylen := (kp.length + 1) / 2
      if keylen = 0 then (3, t)
      else if 255 < keylen then (4, t)
      else
        let key := decodeKey kp
        match preset with
        | some v => (0, (assignT t key v).2)
        | none =>
          match valuePart with
          | none =>
            let r := deleteT t key
            (16 + r.1, r.2)
          | some v => (0, (assignT t key v).2)

/-- The state-independent part of the add_from_string return code: true
exactly when the code is 0 for every table (the parse-failure codes 1-4
and the delete-path codes 16/17 are all nonzero, and which of 16/17
occurs is the only table-dependent part). -/
def stringApplies (s : List Nat) : Bool :=
  let s1 := s.dropWhile (fun c => c = 61)
  if s1.isEmpty then false
  else
    let keyHex := s1.takeWhile (fun c => c ≠ 61)
    let rest := s1.dropWhile (fun c => c ≠ 61)
    let valuePart : Option (List Nat) :=
      match rest with
      | [] => none
      | _ :: r => if r.isEmpty then none else some r
    let preset : Option (List Nat) :=
      if keyHex.headD 0 = 47 then some [10]
      else if keyHex.headD 0 = 42 then some []
      else none
    let kp := if keyHex.headD 0 = 47 ∨ keyHex.headD 0 = 42 then keyHex.tail else keyHex
    if (kp.takeWhile isHexDigit).length ≠ kp.length then false
    else
      let keylen := (kp.length + 1) / 2
      if keylen = 0 then false
      else if 255 < keylen then false
      else
        match preset with
        | some _ => true
        | none =>
          match valuePart with
          | none => false
          | some _ => true

/-- Whether thingy_table_add_from_file skips a line without calling
add_from_string (src/thingy.c:217-219): it is whitespace-only after
dropping leading spaces and tabs, or its very first byte (`buf[0]`) is
`'#'`. -/
def skippedLine (line : List Nat) : Bool :=
  (line.dropWhile (fun c => c = 32 || c = 9)).isEmpty || line.headD 0 = 35

/-- The fgets loop of thingy_table_add_from_file (src/thingy.c:212-226):
each line has its leading spaces/tabs dropped before being handed to
add_from_string; blank and `#`-initial lines are skipped; the counter
rises exactly on return code 0. -/
def processLines (t : Table) (count : Nat) : List (List Nat) → Nat × Table
  | [] => (count, t)
  | line :: rest =>
    if skippedLine line then processLines t count rest
    else
      let r := addFromString t (line.dropWhile (fun c => c = 32 || c = 9))
      if r.1 = 0 then processLines r.2 (count + 1) rest
      else processLines r.2 count rest

/-- thingy_table_add_from_file (src/thingy.c:202-233).  The file is
modelled as `none` when unreadable (fopen fails, return code 1,
line 205) and otherwise as its list of lines, each without its trailing
newline (stripped by lines 214-215).  Returns (code, count, table). -/
def addFromFile (t : Table) (file : Option (List (List Nat))) : Nat × Nat × Table :=
  match file with
  | none => (1, 0, t)
  | some lines =>
    let r := processLines t 0 lines
    (0, r.1, r.2)

example : (addFromString initTable [49, 50, 51, 61, 120]).1 = 0 := by rfl
example : searchT (addFromString initTable [49, 50, 51, 61, 120]).2 [1, 35] = some [120] := by rfl
example : searchT (addFromString initTable [42, 52, 49]).2 [65] = some [] := by rfl
example : searchT (addFromString initTable [47, 52, 49]).2 [65] = some [10] := by rfl
example : (addFromString initTable [52, 49]).1 = 17 := by rfl
example : (addFromString ((assignT initTable [65] [120]).2) [52, 49]).1 = 16 := by rfl
example : (addFromFile initTable (some [[35, 120], [], [32, 9], [52, 49, 61, 120], [122, 61, 120]])).2.1 = 1 := by rfl

lemma mem_chainAssign {key val : List Nat} {c : List Node} {n' : Node}
    (h : n' ∈ (chainAssign key val c).1) : n'.key = key ∨ n' ∈ c := by
  induction c with
  | nil =>
    simp [chainAssign] at h
    subst h
    exact Or.inl rfl
  | cons n rest ih =>
    by_cases hk : n.key = key
    · simp [chainAssign, hk] at h
      rcases h with h | h
      · subst h; exact Or.inl rfl
      · exact Or.inr (List.mem_cons_of_mem _ h)
    · simp only [chainAssign, if_neg hk, List.mem_cons] at h
      rcases h with h | h
      · subst h; exact Or.inr (List.mem_cons_self _ _)
      · rcases ih h with h' | h'
        · exact Or.inl h'
        · exact Or.inr (List.mem_cons_of_mem _ h')

lemma chainAssign_false {key val : List Nat} {c : List Node}
    (h : (chainAssign key val c).2 = false) : ∃ n ∈ c, n.key = key := by
  induction c with
  | nil => simp [chainAssign] at h
  | cons n rest ih =>
    by_cases hk : n.key = key
    · exact ⟨n, List.mem_cons_self _ _, hk⟩
    · simp only [chainAssign, if_neg hk] at h
      obtain ⟨m, hm, hmk⟩ := ih h
      exact ⟨m, List.mem_cons_of_mem _ hm, hmk⟩

lemma chainAssign_true {key val : List Nat} {c : List Node}
    (h : (chainAssign key val c).2 = true) : ∀ n ∈ c, n.key ≠ key := by
  induction c with
  | nil => simp
  | cons n rest ih =>
    by_cases hk : n.key = key
    · simp [chainAssign, hk] at h
    · simp only [chainAssign, if_neg hk] at h
      intro m hm
      rcases List.mem_cons.1 hm with h' | h'
      · subst h'; exact hk
      · exact ih h m h'

lemma chainAssign_of_not_found {key val : List Nat} {c : List Node}
    (h : ∀ n ∈ c, n.key ≠ key) : chainAssign key val c = (c ++ [⟨key, val⟩], true) := by
  induction c with
  | nil => rfl
  | cons n rest ih =>
    have hk : n.key ≠ key := h n (List.mem_cons_self _ _)
    simp only [chainAssign, if_neg hk, ih fun m hm => h m (List.mem_cons_of_mem _ hm),
      List.cons_append]

lemma chainAssign_map_key {key val : List Nat} {c : List Node}
    (h : ∃ n ∈ c, n.key = key) :
    (chainAssign key val c).1.map (fun n => n.key) = c.map (fun n => n.key) := by
  induction c with
  | nil => simp at h
  | cons n rest ih =>
    by_cases hk : n.key = key
    · simp [chainAssign, hk]
    · simp only [chainAssign, if_neg hk, List.map_cons, List.cons.injEq, true_and]
      obtain ⟨m, hm, hmk⟩ := h
      rcases List.mem_cons.1 hm with h' | h'
      · subst h'; exact absurd hmk hk
      · exact ih ⟨m, h', hmk⟩

lemma chainAssign_length {key val : List Nat} {c : List Node}
    (h : ∃ n ∈ c, n.key = key) : (chainAssign key val c).1.length = c.length := by
  have := @chainAssign_map_key key val c h
  have h1 := congrArg List.length this
  simpa using h1

lemma chainSearch_chainAssign (key val : List Nat) (c : List Node) :
    chainSearch key (chainAssign key val c).1 = some val := by
  induction c with
  | nil => simp [chainAssign, chainSearch]
  | cons n rest ih =>
    by_cases hk : n.key = key
    · simp [chainAssign, hk, chainSearch]
    · simp only [chainAssign, if_neg hk, chainSearch, if_neg hk]
      exact ih

lemma chainDelete_sublist (key : List Nat) (c : List Node) :
    List.Sublist (chainDelete key c).2 c := by
  induction c with
  | nil => simp [chainDelete]
  | cons n rest ih =>
    by_cases hk : n.key = key
    · simp only [chainDelete, if_pos hk]
      exact List.sublist_cons_self n rest
    · simpa [chainDelete, hk] using List.Sublist.cons₂ n ih

lemma mem_chainDelete {key : List Nat} {c : List Node} {n : Node}
    (h : n ∈ (chainDelete key c).2) : n ∈ c :=
  (chainDelete_sublist key c).mem h

/-- Every stored key length is bounded by `longest_key`: occupied direct
slots witness a key of length 1, and every chain node's key length is at
most `longest_key`. -/
def keyLenInv (t : Table) : Prop :=
  (∀ b, (t.values b).isSome = true → 1 ≤ t.longest) ∧
  (∀ b, ∀ n ∈ t.mbseqs b, n.key.length ≤ t.longest)

/-- No bucket chain holds two nodes with the same key. -/
def distinctInv (t : Table) : Prop :=
  ∀ b, ((t.mbseqs b).map (fun n => n.key)).Nodup

def tableInv (t : Table) : Prop := keyLenInv t ∧ distinctInv t

lemma assignT_longest_le (t : Table) (key val : List Nat) :
    t.longest ≤ ((assignT t key val).2).longest := by
  match key with
  | [] => exact Nat.le_refl _
  | [b] =>
    simp only [assignT]
    split <;> omega
  | b :: c :: rest =>
    simp only [assignT]
    split
    · simp only []
      split <;> omega
    · exact Nat.le_refl _

lemma deleteT_longest (t : Table) (key : List Nat) :
    ((deleteT t key).2).longest = t.longest := by
  match key with
  | [] => rfl
  | [b] =>
    simp only [deleteT]
    split
    · rfl
    · split <;> rfl
  | b :: c :: rest =>
    simp only [deleteT]
    split <;> rfl

lemma keyLenInv_assign {t : Table} (key val : List Nat) (h : keyLenInv t) :
    keyLenInv (assignT t key val).2 := by
  obtain ⟨h1, h2⟩ := h
  match key with
  | [] => exact ⟨h1, h2⟩
  | [b] =>
    constructor
    · intro b' _
      simp only [assignT]
      split <;> omega
    · intro b' n hn
      simp only [assignT] at hn ⊢
      have := h2 b' n hn
      split <;> omega
  | b :: c :: rest =>
    simp only [assignT]
    split
    case isTrue hr =>
      constructor
      · intro b' hb'
        simp only [] at hb' ⊢
        have := h1 b' hb'
        split <;> omega
      · intro b' n hn
        simp only [] at hn ⊢
        by_cases hb : b' = b
        · rw [if_pos hb] at hn
          rcases mem_chainAssign hn with hk | hm
          · rw [hk]
            split <;> omega
          · have := h2 b n hm
            split <;> omega
        · rw [if_neg hb] at hn
          have := h2 b' n hn
          split <;> omega
    case isFalse hr =>
      constructor
      · intro b' hb'
        exact h1 b' hb'
      · intro b' n hn
        simp only [] at hn ⊢
        by_cases hb : b' = b
        · rw [if_pos hb] at hn
          rcases mem_chainAssign hn with hk | hm
          · obtain ⟨m, hm, hmk⟩ :=
              @chainAssign_false (b :: c :: rest) val (t.mbseqs b)
                (by simpa using hr)
            rw [hk, ← hmk]
            exact h2 b m hm
          · exact h2 b n hm
        · rw [if_neg hb] at hn
          exact h2 b' n hn

lemma distinctInv_assign {t : Table} (key val : List Nat) (h : distinctInv t) :
    distinctInv (assignT t key val).2 := by
  match key with
  | [] => exact h
  | [b] =>
    intro b'
    simp only [assignT]
    exact h b'
  | b :: c :: rest =>
    intro b'
    simp only [assignT]
    split
    case isTrue hr =>
      simp only []
      by_cases hb : b' = b
      · rw [if_pos hb]
        rw [chainAssign_of_not_found (chainAssign_true hr)]
        have hnotin : (b :: c :: rest) ∉ (t.mbseqs b).map (fun n => n.key) := by
          intro hmem
          obtain ⟨m, hm, hmk⟩ := List.mem_map.1 hmem
          exact chainAssign_true hr m hm hmk
        simp only [List.map_append, List.map_cons, List.map_nil, List.nodup_append]
        refine ⟨h b, List.nodup_singleton _, ?_⟩
        intro a ha ha'
        simp only [List.mem_singleton] at ha'
        rw [ha'] at ha
        exact hnotin ha
      · rw [if_neg hb]
        exact h b'
    case isFalse hr =>
      simp only []
      by_cases hb : b' = b
      · rw [if_pos hb]
        rw [chainAssign_map_key (chainAssign_false (by simpa using hr))]
        exact h b
      · rw [if_neg hb]
        exact h b'

lemma keyLenInv_delete {t : Table} (key : List Nat) (h : keyLenInv t) :
    keyLenInv (deleteT t key).2 := by
  obtain ⟨h1, h2⟩ := h
  match key with
  | [] => exact ⟨h1, h2⟩
  | [b] =>
    simp only [deleteT]
    split
    · exact ⟨h1, h2⟩
    · split
      · exact ⟨h1, h2⟩
      · constructor
        · intro b' hb'
          simp only [] at hb'
          by_cases hb : b' = b
          · rw [if_pos hb] at hb'
            simp at hb'
          · rw [if_neg hb] at hb'
            exact h1 b' hb'
        · intro b' n hn
          exact h2 b' n hn
  | b :: c :: rest =>
    simp only [deleteT]
    split
    · exact ⟨h1, h2⟩
    · constructor
      · intro b' hb'
        exact h1 b' hb'
      · intro b' n hn
        simp only [] at hn
        by_cases hb : b' = b
        · rw [if_pos hb] at hn
          exact h2 b n (mem_chainDelete hn)
        · rw [if_neg hb] at hn
          exact h2 b' n hn

lemma distinctInv_delete {t : Table} (key : List Nat) (h : distinctInv t) :
    distinctInv (deleteT t key).2 := by
  match key with
  | [] => exact h
  | [b] =>
    simp only [deleteT]
    split
    · exact h
    · split
      · exact h
      · intro b'; exact h b'
  | b :: c :: rest =>
    simp only [deleteT]
    split
    · exact h
    · intro b'
      simp only []
      by_cases hb : b' = b
      · rw [if_pos hb]
        exact (h b).sublist ((chainDelete_sublist _ _).map _)
      · rw [if_neg hb]
        exact h b'

/-- add_from_string only ever leaves the table alone, assigns one key, or
deletes one key. -/
lemma addFromString_shape (t : Table) (s : List Nat) :
    (addFromString t s).2 = t ∨
      (∃ k v, (addFromString t s).2 = (assignT t k v).2) ∨
      ∃ k, (addFromString t s).2 = (deleteT t k).2 := by
  simp only [addFromString]
  repeat' split
  all_goals
    first
    | exact Or.inl rfl
    | exact Or.inr (Or.inl ⟨_, _, rfl⟩)
    | exact Or.inr (Or.inr ⟨_, rfl⟩)

lemma tableInv_assign {t : Table} (key val : List Nat) (h : tableInv t) :
    tableInv (assignT t key val).2 :=
  ⟨keyLenInv_assign key val h.1, distinctInv_assign key val h.2⟩

lemma tableInv_delete {t : Table} (key : List Nat) (h : tableInv t) :
    tableInv (deleteT t key).2 :=
  ⟨keyLenInv_delete key h.1, distinctInv_delete key h.2⟩

lemma tableInv_addFromString {t : Table} (s : List Nat) (h : tableInv t) :
    tableInv (addFromString t s).2 := by
  rcases addFromString_shape t s with hs | ⟨k, v, hs⟩ | ⟨k, hs⟩
  · rw [hs]; exact h
  · rw [hs]; exact tableInv_assign k v h
  · rw [hs]; exact tableInv_delete k h

lemma processLines_pres {P : Table → Prop}
    (hstep : ∀ t s, P t → P (addFromString t s).2) :
    ∀ (lines : List (List Nat)) (t : Table) (count : Nat),
      P t → P (processLines t count lines).2 := by
  intro lines
  induction lines with
  | nil => intro t count h; exact h
  | cons line rest ih =>
    intro t count h
    simp only [processLines]
    split
    · exact ih t count h
    · split
      · exact ih _ _ (hstep _ _ h)
      · exact ih _ _ (hstep _ _ h)

/-- The table states reachable through the thingy-table API from the
freshly initialized table. -/
inductive Reachable : Table → Prop where
  | init : Reachable initTable
  | assign (key val : List Nat) {t : Table} : Reachable t → Reachable (assignT t key val).2
  | remove (key : List Nat) {t : Table} : Reachable t → Reachable (deleteT t key).2
  | fromString (s : List Nat) {t : Table} : Reachable t → Reachable (addFromString t s).2
  | fromFile (f : Option (List (List Nat))) {t : Table} :
      Reachable t → Reachable (addFromFile t f).2.2

lemma tableInv_init : tableInv initTable := by
  refine ⟨⟨?_, ?_⟩, ?_⟩
  · intro b hb
    simp [initTable] at hb
  · intro b n hn
    simp [initTable] at hn
  · intro b
    simp [initTable]

lemma tableInv_reachable {t : Table} (h : Reachable t) : tableInv t := by
  induction h with
  | init => exact tableInv_init
  | assign key val _ ih => exact tableInv_assign key val ih
  | remove key _ ih => exact tableInv_delete key ih
  | fromString s _ ih => exact tableInv_addFromString s ih
  | fromFile f _ ih =>
    match f with
    | none => exact ih
    | some lines =>
      exact processLines_pres (fun t s h => tableInv_addFromString s h) lines _ 0 ih

/-- A key currently stored in the table: a single byte whose direct slot
is occupied, or a multi-byte key held by a node in its chain. -/
def storedKey (t : Table) (key : List Nat) : Prop :=
  match key with
  | [] => False
  | [b] => (t.values b).isSome = true
  | b :: _ :: _ => ∃ n ∈ t.mbseqs b, n.key = key

lemma storedKey_le_longest {t : Table} (h : keyLenInv t) {key : List Nat}
    (hs : storedKey t key) : key.length ≤ t.longest := by
  match key with
  | [] => exact absurd hs (by simp [storedKey])
  | [b] => exact h.1 b hs
  | b :: c :: rest =>
    obtain ⟨n, hn, hk⟩ := hs
    rw [← hk]
    exact h.2 b n hn

/-- One table mutation, for stating facts about operation sequences. -/
inductive TableOp where
  | assign (key val : List Nat)
  | remove (key : List Nat)

def applyTableOp (t : Table) : TableOp → Table
  | .assign k v => (assignT t k v).2
  | .remove k => (deleteT t k).2

def applyTableOps (t : Table) (ops : List TableOp) : Table :=
  ops.foldl applyTableOp t

lemma applyTableOps_longest_le (t : Table) (ops : List TableOp) :
    t.longest ≤ (applyTableOps t ops).longest := by
  induction ops generalizing t with
  | nil => exact Nat.le_refl _
  | cons op rest ih =>
    refine Nat.le_trans ?_ (ih (applyTableOp t op))
    match op with
    | .assign k v => exact assignT_longest_le t k v
    | .remove k => exact Nat.le_of_eq (deleteT_longest t k).symm

lemma assignT_longest_raise {t : Table} (h : keyLenInv t) (key val : List Nat)
    (hne : key ≠ []) (hlt : t.longest < key.length) :
    ((assignT t key val).2).longest = key.length := by
  match key with
  | [] => exact absurd rfl hne
  | [b] =>
    simp only [List.length_cons, List.length_nil] at hlt ⊢
    simp only [assignT]
    rw [if_pos (by omega)]
  | b :: c :: rest =>
    have hnot : ∀ n ∈ t.mbseqs b, n.key ≠ b :: c :: rest := by
      intro n hn hk
      have := h.2 b n hn
      rw [hk] at this
      omega
    simp only [assignT]
    rw [chainAssign_of_not_found hnot]
    simp only [if_true]
    rw [if_pos hlt]

lemma searchT_assignT_self {t : Table} (h : keyLenInv t) (key val : List Nat)
    (hne : key ≠ []) : searchT (assignT t key val).2 key = some val := by
  match key with
  | [] => exact absurd rfl hne
  | [b] =>
    have hL : 1 ≤ ((assignT t [b] val).2).longest := by
      simp only [assignT]
      split <;> omega
    have hv : ((assignT t [b] val).2).values b = some val := by
      simp [assignT]
    simp only [searchT, List.length_cons, List.length_nil]
    rw [if_neg (by omega)]
    exact hv
  | b :: c :: rest =>
    have hmb : ((assignT t (b :: c :: rest) val).2).mbseqs b =
        (chainAssign (b :: c :: rest) val (t.mbseqs b)).1 := by
      simp only [assignT]
      split <;> simp
    have hlong : (b :: c :: rest).length ≤ ((assignT t (b :: c :: rest) val).2).longest := by
      cases hr : (chainAssign (b :: c :: rest) val (t.mbseqs b)).2
      · obtain ⟨m, hm, hmk⟩ := chainAssign_false hr
        have hmL := h.2 b m hm
        rw [hmk] at hmL
        simp only [assignT, hr, Bool.false_eq_true, if_false]
        exact hmL
      · simp only [assignT, hr, if_true]
        split <;> omega
    simp only [searchT]
    rw [if_neg (by omega), hmb]
    exact chainSearch_chainAssign (b :: c :: rest) val (t.mbseqs b)

lemma assignT_mbseqs_length_of_stored {t : Table} {key : List Nat} (val : List Nat)
    (hs : storedKey t key) (b' : Nat) :
    (((assignT t key val).2).mbseqs b').length = (t.mbseqs b').length := by
  match key with
  | [] => rfl
  | [b] => simp [assignT]
  | b :: c :: rest =>
    obtain ⟨n, hn, hk⟩ := hs
    have hr : (chainAssign (b :: c :: rest) val (t.mbseqs b)).2 = false := by
      cases hr2 : (chainAssign (b :: c :: rest) val (t.mbseqs b)).2
      · rfl
      · exact absurd hk (chainAssign_true hr2 n hn)
    by_cases hb : b' = b
    · simp only [assignT, hr, Bool.false_eq_true, if_false]
      rw [hb]
      simp only [if_pos rfl]
      exact chainAssign_length ⟨n, hn, hk⟩
    · simp only [assignT, hr, Bool.false_eq_true, if_false]
      rw [if_neg hb]

/-- C1: evidence for the code bug in the assign/search round trip.  The
claim quantifies over every key of length 1..255, but for the key
[0x41, 0x00, 0x42] the node copy `strdup((char*)key)` at src/thingy.c:76
stores only the bytes before the first null: a 1-byte key content in a
2-byte allocation, although the node records length 3, so the 3-byte
memcmp of the subsequent search (src/thingy.c:111) reads past the stored
allocation instead of reliably returning the assigned value. -/
theorem c1_strdup_truncates_key :
    strdup [65, 0, 66] = [65] ∧
      strdup [65, 0, 66] ≠ [65, 0, 66] ∧
      (strdup [65, 0, 66]).length + 1 < ([65, 0, 66] : List Nat).length := by
  decide

/-- C2: from any reachable table, a successful assign raises `longest_key`
to the key's length whenever that exceeds it, assign never lowers it,
delete never changes it, and it is non-decreasing over any sequence of
assign/delete operations. -/
theorem c2_longest_key_monotone {t : Table} (h : Reachable t) :
    (∀ key val, key ≠ [] → t.longest < key.length →
        ((assignT t key val).2).longest = key.length) ∧
    (∀ key val, t.longest ≤ ((assignT t key val).2).longest) ∧
    (∀ key, ((deleteT t key).2).longest = t.longest) ∧
    (∀ ops, t.longest ≤ (applyTableOps t ops).longest) :=
  ⟨fun key val hne hlt =>
      assignT_longest_raise (tableInv_reachable h).1 key val hne hlt,
    fun key val => assignT_longest_le t key val,
    fun key => deleteT_longest t key,
    fun ops => applyTableOps_longest_le t ops⟩

theorem c2_longest_key_monotone_witness :
    ((assignT initTable [65] [120]).2).longest = ([65] : List Nat).length :=
  (c2_longest_key_monotone Reachable.init).1 [65] [120] (by decide) (by decide)

/-- C3: evidence for the code bug in the one-entry-per-key guarantee (the
same strdup slip as C1, hitting a different promise).  Assigning the key
[0x41, 0x00, 0x42] stores a node whose key bytes are the strdup copy
truncated at the first null (src/thingy.c:76), a 2-byte allocation
recorded as length 3.  A second assign of the same key then runs the
chain-scan memcmp of src/thingy.c:59-60 over 3 bytes of that allocation,
reading past it (undefined behavior); against the bytes the node actually
stores the key does not match, so the scan appends a second node for the
same key instead of replacing the value in place - evaluated here by
running the chain scan on the node as the C code stored it: the appended
flag is true and the chain ends up with two nodes for the one key. -/
theorem c3_strdup_duplicate_entry :
    strdup [65, 0, 66] = [65] ∧
      (chainAssign [65, 0, 66] [121] [(⟨strdup [65, 0, 66], [120]⟩ : Node)]).2 = true ∧
      (chainAssign [65, 0, 66] [121] [(⟨strdup [65, 0, 66], [120]⟩ : Node)]).1 =
        [⟨[65], [120]⟩, ⟨[65, 0, 66], [121]⟩] := by
  decide

/-- C9: in every reachable table every stored key (direct slot or chain
node) has length at most `longest_key`, so the fast rejection of queries
longer than `longest_key` in search (src/thingy.c:105) and delete
(src/thingy.c:122) can never hide a stored entry. -/
theorem c9_fast_reject_never_hides {t : Table} (h : Reachable t) :
    ∀ key, storedKey t key → key.length ≤ t.longest :=
  fun _ hs => storedKey_le_longest (tableInv_reachable h).1 hs

theorem c9_fast_reject_never_hides_witness :
    ([65] : List Nat).length ≤ ((assignT initTable [65] [120]).2).longest :=
  c9_fast_reject_never_hides (Reachable.assign [65] [120] Reachable.init) [65]
    (show (((assignT initTable [65] [120]).2).values 65).isSome = true by decide)

lemma takeWhile_append_stop {α : Type} {p : α → Bool} {l : List α}
    (h : ∀ a ∈ l, p a = true) {x : α} (hx : p x = false) (r : List α) :
    (l ++ x :: r).takeWhile p = l := by
  induction l with
  | nil => simp [List.takeWhile_cons, hx]
  | cons a rest ih =>
    have ha := h a (List.mem_cons_self _ _)
    simp only [List.cons_append, List.takeWhile_cons, ha, if_true]
    rw [ih fun b hb => h b (List.mem_cons_of_mem _ hb)]

lemma dropWhile_append_stop {α : Type} {p : α → Bool} {l : List α}
    (h : ∀ a ∈ l, p a = true) {x : α} (hx : p x = false) (r : List α) :
    (l ++ x :: r).dropWhile p = x :: r := by
  induction l with
  | nil => simp [List.dropWhile_cons, hx]
  | cons a rest ih =>
    have ha := h a (List.mem_cons_self _ _)
    simp only [List.cons_append, List.dropWhile_cons, ha, if_true]
    exact ih fun b hb => h b (List.mem_cons_of_mem _ hb)

lemma foldl_range_succ {α : Type} (f g : α → Nat → α) (a : α) (n : Nat)
    (h0 : f a 0 = a) (hstep : ∀ x i, f x (i + 1) = g x i) :
    List.foldl f a (List.range (n + 1)) = List.foldl g a (List.range n) := by
  rw [List.range_succ_eq_map, List.foldl_cons, h0, List.foldl_map]
  refine List.foldl_ext _ _ _ ?_
  intro x i _
  rw [Nat.succ_eq_add_one, hstep]

/-- An odd-length digit string decodes exactly as its left-padding with
one '0' digit (byte 48): the padding digit contributes a zero nibble to
the zero-initialized high half of the first byte, and every original
digit lands at the same (byte, nibble) offset `oi`. -/
lemma decodeKey_eq_pad_zero {ds : List Nat} (hodd : ds.length % 2 = 1) :
    decodeKey ds = decodeKey (48 :: ds) := by
  obtain ⟨m, hm⟩ : ∃ m, ds.length = 2 * m + 1 := ⟨ds.length / 2, by omega⟩
  simp only [decodeKey, List.length_cons, hm]
  have e1 : (2 * m + 1) % 2 = 1 := by omega
  have e2 : (2 * m + 1 + 1) % 2 = 0 := by omega
  have e3 : (2 * m + 1 + 1) / 2 = m + 1 := by omega
  have e4 : (2 * m + 1 + 1 + 1) / 2 = m + 1 := by omega
  simp only [e1, e2, e3, e4, Nat.add_zero]
  refine (foldl_range_succ _ _ _ _ ?_ ?_).symm
  · simp [List.replicate_succ]
  · intro x i
    simp only [List.getD_cons_succ]

example : decodeKey [49, 50, 51] = decodeKey [48, 49, 50, 51] := by decide

/-- C4: an odd-digit HEXKEY decodes as if left-padded with one '0' digit;
in particular loading the line "123=x" succeeds and assigns the value "x"
to the two-byte key [0x01, 0x23] and not to [0x12, 0x30]. -/
theorem c4_odd_hexkey_left_padded :
    (∀ ds : List Nat, ds.length % 2 = 1 → decodeKey ds = decodeKey (48 :: ds)) ∧
      (addFromString initTable [49, 50, 51, 61, 120]).1 = 0 ∧
      searchT (addFromString initTable [49, 50, 51, 61, 120]).2 [1, 35] = some [120] ∧
      searchT (addFromString initTable [49, 50, 51, 61, 120]).2 [18, 48] = none :=
  ⟨fun _ hodd => decodeKey_eq_pad_zero hodd, by decide, by decide, by decide⟩

theorem c4_odd_hexkey_left_padded_witness :
    decodeKey [49, 50, 51] = decodeKey [48, 49, 50, 51] :=
  c4_odd_hexkey_left_padded.1 [49, 50, 51] (by decide)

lemma isHexDigit_ne_eq {c : Nat} (h : isHexDigit c = true) :
    c ≠ 61 ∧ c ≠ 47 ∧ c ≠ 42 ∧ c ≠ 35 := by
  simp only [isHexDigit, Bool.or_eq_true, Bool.and_eq_true, decide_eq_true_eq] at h
  omega

/-- The common path of add_from_string on a bare all-hex line: the strtok
split yields the whole line as the key token, no value follows, and the
delete path runs on the decoded key with return code `16 + r`. -/
lemma addFromString_hex_line (t : Table) (ds : List Nat) (hne : ds ≠ [])
    (hhex : ∀ c ∈ ds, isHexDigit c = true) (hlen : ds.length ≤ 510) :
    addFromString t ds =
      (16 + (deleteT t (decodeKey ds)).1, (deleteT t (decodeKey ds)).2) := by
  obtain ⟨d, rest, rfl⟩ := List.exists_cons_of_ne_nil hne
  have hdfacts := isHexDigit_ne_eq (hhex d (List.mem_cons_self _ _))
  have htake : (d :: rest).takeWhile (fun c => c ≠ 61) = d :: rest :=
    List.takeWhile_eq_self_iff.2 fun c hc => by
      simp [(isHexDigit_ne_eq (hhex c hc)).1]
  have hdropne : (d :: rest).dropWhile (fun c => c ≠ 61) = [] :=
    List.dropWhile_eq_nil_iff.2 fun c hc => by
      simp [(isHexDigit_ne_eq (hhex c hc)).1]
  have htakehex : (d :: rest).takeWhile isHexDigit = d :: rest :=
    List.takeWhile_eq_self_iff.2 hhex
  simp only [List.length_cons] at hlen
  simp only [addFromString, List.dropWhile_cons, hdfacts.1, decide_False,
    Bool.false_eq_true, if_false, List.isEmpty_cons, htake, hdropne,
    List.headD_cons, hdfacts.2.1, hdfacts.2.2.1, false_or]
  rw [if_neg (show ¬(((d :: rest).takeWhile isHexDigit).length ≠ (d :: rest).length) by
        simp [htakehex]),
    if_neg (show ¬(((d :: rest).length + 1) / 2 = 0) by
        simp only [List.length_cons]; omega),
    if_neg (show ¬(255 < ((d :: rest).length + 1) / 2) by
        simp only [List.length_cons]; omega)]

/-- Same path as `addFromString_hex_line` for an all-hex key followed by
a bare `'='`: the strtok split leaves nothing after the `'='`, so the
later `strtok(NULL, "")` returns NULL and the delete path runs. -/
lemma addFromString_hex_eq_line (t : Table) (ds : List Nat) (hne : ds ≠ [])
    (hhex : ∀ c ∈ ds, isHexDigit c = true) (hlen : ds.length ≤ 510) :
    addFromString t (ds ++ [61]) =
      (16 + (deleteT t (decodeKey ds)).1, (deleteT t (decodeKey ds)).2) := by
  obtain ⟨d, rest, rfl⟩ := List.exists_cons_of_ne_nil hne
  have hdfacts := isHexDigit_ne_eq (hhex d (List.mem_cons_self _ _))
  have htake0 : ((d :: rest) ++ 61 :: []).takeWhile (fun c => c ≠ 61) = d :: rest :=
    takeWhile_append_stop
      (fun a ha => by simp [(isHexDigit_ne_eq (hhex a ha)).1]) (by simp) []
  have htake : (d :: (rest ++ [61])).takeWhile (fun c => c ≠ 61) = d :: rest := by
    rw [← List.cons_append]
    exact htake0
  have hdrop0 : ((d :: rest) ++ 61 :: []).dropWhile (fun c => c ≠ 61) = 61 :: [] :=
    dropWhile_append_stop
      (fun a ha => by simp [(isHexDigit_ne_eq (hhex a ha)).1]) (by simp) []
  have hdrop : (d :: (rest ++ [61])).dropWhile (fun c => c ≠ 61) = 61 :: [] := by
    rw [← List.cons_append]
    exact hdrop0
  have htakehex : (d :: rest).takeWhile isHexDigit = d :: rest :=
    List.takeWhile_eq_self_iff.2 hhex
  simp only [List.length_cons] at hlen
  simp only [addFromString, List.cons_append, List.dropWhile_cons, hdfacts.1,
    decide_False, Bool.false_eq_true, if_false, List.isEmpty_cons, htake, hdrop,
    List.headD_cons, hdfacts.2.1, hdfacts.2.2.1, false_or, List.isEmpty_nil,
    eq_self_iff_true, if_true]
  rw [if_neg (show ¬(((d :: rest).takeWhile isHexDigit).length ≠ (d :: rest).length) by
        simp [htakehex]),
    if_neg (show ¬(((d :: rest).length + 1) / 2 = 0) by
        simp only [List.length_cons]; omega),
    if_neg (show ¬(255 < ((d :: rest).length + 1) / 2) by
        simp only [List.length_cons]; omega)]

/-- The assign path of add_from_string for a `'/'`-marked line: value
preset to the newline byte, key decoded from the digits after the
marker. -/
lemma addFromString_slash_line (t : Table) (ds : List Nat) (hne : ds ≠ [])
    (hhex : ∀ c ∈ ds, isHexDigit c = true) (hlen : ds.length ≤ 510) :
    addFromString t (47 :: ds) = (0, (assignT t (decodeKey ds) [10]).2) := by
  obtain ⟨d, rest, rfl⟩ := List.exists_cons_of_ne_nil hne
  have htake : (47 :: d :: rest).takeWhile (fun c => c ≠ 61) = 47 :: d :: rest :=
    List.takeWhile_eq_self_iff.2 (by
      intro c hc
      rcases List.mem_cons.1 hc with h | h
      · rw [h]; simp
      · simp [(isHexDigit_ne_eq (hhex c h)).1])
  have hdropne : (47 :: d :: rest).dropWhile (fun c => c ≠ 61) = [] :=
    List.dropWhile_eq_nil_iff.2 (by
      intro c hc
      rcases List.mem_cons.1 hc with h | h
      · rw [h]; simp
      · simp [(isHexDigit_ne_eq (hhex c h)).1])
  have htakehex : (d :: rest).takeWhile isHexDigit = d :: rest :=
    List.takeWhile_eq_self_iff.2 hhex
  have h61 : ((47 : Nat) = 61) = False := by simp
  have h47 : ((47 : Nat) = 47) = True := by simp
  simp only [List.length_cons] at hlen
  simp only [addFromString, List.dropWhile_cons, h61, decide_False,
    Bool.false_eq_true, if_false, List.isEmpty_cons, htake, hdropne,
    List.headD_cons, h47, if_true, true_or, List.tail_cons]
  rw [if_neg (show ¬(((d :: rest).takeWhile isHexDigit).length ≠ (d :: rest).length) by
        simp [htakehex]),
    if_neg (show ¬(((d :: rest).length + 1) / 2 = 0) by
        simp only [List.length_cons]; omega),
    if_neg (show ¬(255 < ((d :: rest).length + 1) / 2) by
        simp only [List.length_cons]; omega)]

/-- The assign path of add_from_string for a `'*'`-marked line: the value
is preset to the C string literal "\0", whose content is empty. -/
lemma addFromString_star_line (t : Table) (ds : List Nat) (hne : ds ≠ [])
    (hhex : ∀ c ∈ ds, isHexDigit c = true) (hlen : ds.length ≤ 510) :
    addFromString t (42 :: ds) = (0, (assignT t (decodeKey ds) []).2) := by
  obtain ⟨d, rest, rfl⟩ := List.exists_cons_of_ne_nil hne
  have htake : (42 :: d :: rest).takeWhile (fun c => c ≠ 61) = 42 :: d :: rest :=
    List.takeWhile_eq_self_iff.2 (by
      intro c hc
      rcases List.mem_cons.1 hc with h | h
      · rw [h]; simp
      · simp [(isHexDigit_ne_eq (hhex c h)).1])
  have hdropne : (42 :: d :: rest).dropWhile (fun c => c ≠ 61) = [] :=
    List.dropWhile_eq_nil_iff.2 (by
      intro c hc
      rcases List.mem_cons.1 hc with h | h
      · rw [h]; simp
      · simp [(isHexDigit_ne_eq (hhex c h)).1])
  have htakehex : (d :: rest).takeWhile isHexDigit = d :: rest :=
    List.takeWhile_eq_self_iff.2 hhex
  have h61 : ((42 : Nat) = 61) = False := by simp
  have h47 : ((42 : Nat) = 47) = False := by simp
  have h42 : ((42 : Nat) = 42) = True := by simp
  simp only [List.length_cons] at hlen
  simp only [addFromString, List.dropWhile_cons, h61, decide_False,
    Bool.false_eq_true, if_false, List.isEmpty_cons, htake, hdropne,
    List.headD_cons, h47, h42, if_true, false_or, List.tail_cons]
  rw [if_neg (show ¬(((d :: rest).takeWhile isHexDigit).length ≠ (d :: rest).length) by
        simp [htakehex]),
    if_neg (show ¬(((d :: rest).length + 1) / 2 = 0) by
        simp only [List.length_cons]; omega),
    if_neg (show ¬(255 < ((d :: rest).length + 1) / 2) by
        simp only [List.length_cons]; omega)]

/-- The return code of add_from_string is zero exactly when
`stringApplies` holds; in particular whether a line counts as applied does
not depend on the table it is applied to. -/
lemma addFromString_fst_eq_zero_iff (t : Table) (s : List Nat) :
    ((addFromString t s).1 = 0) ↔ stringApplies s = true := by
  simp only [addFromString, stringApplies]
  repeat' split
  all_goals simp_all

/-- Whether add_from_file counts a line: it is not skipped as blank or
comment, and add_from_string returns 0 on its whitespace-stripped form. -/
def lineCounted (line : List Nat) : Bool :=
  !skippedLine line && stringApplies (line.dropWhile (fun c => c = 32 || c = 9))

lemma processLines_count (t : Table) (count : Nat) (lines : List (List Nat)) :
    (processLines t count lines).1 = count + lines.countP lineCounted := by
  induction lines generalizing t count with
  | nil => simp [processLines]
  | cons line rest ih =>
    simp only [processLines]
    split
    case isTrue hskip =>
      rw [ih]
      have hlc : lineCounted line = false := by
        simp [lineCounted, hskip]
      simp [List.countP_cons, hlc]
    case isFalse hskip =>
      split
      case isTrue hzero =>
        rw [ih]
        have hlc : lineCounted line = true := by
          have hsa := (addFromString_fst_eq_zero_iff t
            (line.dropWhile (fun c => c = 32 || c = 9))).1 hzero
          have hsk : skippedLine line = false := by
            cases hh : skippedLine line
            · rfl
            · exact absurd hh hskip
          simp [lineCounted, hsk, hsa]
        simp [List.countP_cons, hlc]
        omega
      case isFalse hzero =>
        rw [ih]
        have hlc : lineCounted line = false := by
          have hsa : stringApplies (line.dropWhile (fun c => c = 32 || c = 9)) = false := by
            cases hsa : stringApplies (line.dropWhile (fun c => c = 32 || c = 9))
            · rfl
            · exact absurd ((addFromString_fst_eq_zero_iff t _).2 hsa) hzero
          simp [lineCounted, hsa]
        simp [List.countP_cons, hlc]

/-- C5: loading a readable file returns code 0 and counts exactly the
lines that are not blank/comment-skipped and whose stripped form parses
to an applied entry (a predicate independent of the table state, so a
malformed line never aborts the remaining lines); a skipped line leaves
the whole result unchanged; an unreadable file is the single error
code 1. -/
theorem c5_load_tolerates_bad_lines :
    (∀ t : Table, (addFromFile t none).1 = 1) ∧
    (∀ (t : Table) (lines : List (List Nat)), (addFromFile t (some lines)).1 = 0) ∧
    (∀ (t : Table) (lines : List (List Nat)),
        (addFromFile t (some lines)).2.1 = lines.countP lineCounted) ∧
    (∀ (t : Table) (line : List Nat) (rest : List (List Nat)), skippedLine line = true →
        addFromFile t (some (line :: rest)) = addFromFile t (some rest)) := by
  refine ⟨fun t => rfl, fun t lines => rfl, ?_, ?_⟩
  · intro t lines
    simpa using processLines_count t 0 lines
  · intro t line rest h
    simp [addFromFile, processLines, h]

theorem c5_load_tolerates_bad_lines_witness :
    addFromFile initTable (some [[35, 120]]) = addFromFile initTable (some []) :=
  c5_load_tolerates_bad_lines.2.2.2 initTable [35, 120] [] (by decide)

/-- C6 counterexample: loading "*41" stores the empty value for key
[0x41] (the C literal "\0" is an empty string), not the one-byte value
[0x00] that the claim describes. -/
theorem c6_star_value_counterexample :
    searchT (addFromString initTable [42, 52, 49]).2 [65] = some [] ∧
      some ([] : List Nat) ≠ some [0] := by
  decide

/-- C6 (amended): a `/HEXKEY` line assigns the single newline byte 0x0A
as the value; a `*HEXKEY` line assigns the empty value (the C string
literal "\0", i.e. a bare null terminator with no content bytes). -/
theorem c6_marker_lines (t : Table) (ds : List Nat) (hne : ds ≠ [])
    (hhex : ∀ c ∈ ds, isHexDigit c = true) (hlen : ds.length ≤ 510) :
    addFromString t (47 :: ds) = (0, (assignT t (decodeKey ds) [10]).2) ∧
      addFromString t (42 :: ds) = (0, (assignT t (decodeKey ds) []).2) :=
  ⟨addFromString_slash_line t ds hne hhex hlen,
    addFromString_star_line t ds hne hhex hlen⟩

theorem c6_marker_lines_witness :
    addFromString initTable (47 :: [52, 49]) =
      (0, (assignT initTable (decodeKey [52, 49]) [10]).2) :=
  (c6_marker_lines initTable [52, 49] (by decide) (by decide) (by decide)).1

/-- C10: a bare all-hex line, or one followed directly by a final '=',
takes the delete path with return code 16 + r, which is nonzero even when
the delete succeeds, so such lines never satisfy the counting predicate
of the loader. -/
theorem c10_bare_hexkey_deletes (t : Table) (ds : List Nat) (hne : ds ≠ [])
    (hhex : ∀ c ∈ ds, isHexDigit c = true) (hlen : ds.length ≤ 510) :
    addFromString t ds =
        (16 + (deleteT t (decodeKey ds)).1, (deleteT t (decodeKey ds)).2) ∧
      addFromString t (ds ++ [61]) =
        (16 + (deleteT t (decodeKey ds)).1, (deleteT t (decodeKey ds)).2) ∧
      (addFromString t ds).1 ≠ 0 ∧
      (addFromString t (ds ++ [61])).1 ≠ 0 ∧
      stringApplies ds = false ∧
      stringApplies (ds ++ [61]) = false := by
  have h1 := addFromString_hex_line t ds hne hhex hlen
  have h2 := addFromString_hex_eq_line t ds hne hhex hlen
  have e1 : (addFromString t ds).1 = 16 + (deleteT t (decodeKey ds)).1 := by rw [h1]
  have e2 : (addFromString t (ds ++ [61])).1 = 16 + (deleteT t (decodeKey ds)).1 := by
    rw [h2]
  have hsa1 : stringApplies ds = false := by
    cases hsa : stringApplies ds
    · rfl
    · have := (addFromString_fst_eq_zero_iff t ds).2 hsa
      omega
  have hsa2 : stringApplies (ds ++ [61]) = false := by
    cases hsa : stringApplies (ds ++ [61])
    · rfl
    · have := (addFromString_fst_eq_zero_iff t (ds ++ [61])).2 hsa
      omega
  exact ⟨h1, h2, by omega, by omega, hsa1, hsa2⟩

theorem c10_bare_hexkey_deletes_witness :
    addFromString initTable [52, 49] =
      (16 + (deleteT initTable (decodeKey [52, 49])).1,
        (deleteT initTable (decodeKey [52, 49])).2) :=
  (c10_bare_hexkey_deletes initTable [52, 49] (by decide) (by decide) (by decide)).1

end Thingy

namespace Editor

/-- Parse errors of the search-string compiler, with the input offset the
reported `err_info` pointer designates (src/unnamed/part_000:168-173). -/
inductive ParseError where
  | invalidHex (pos : Nat)
  | invalidEscape (pos : Nat)
  | unexpectedEnd
deriving DecidableEq, Repr

/-- Value of a hex digit byte (0 for non-digits, unreachable under the
digit guard). -/
def hexNib (c : Nat) : Nat :=
  if 48 ≤ c ∧ c ≤ 57 then c - 48
  else if 65 ≤ c ∧ c ≤ 70 then c - 65 + 10
  else if 97 ≤ c ∧ c ≤ 102 then c - 97 + 10
  else 0

/-- Modelled from the spec: the implementation of
editor_parse_search_string is not under src/ (only its declaration and
contract at src/unnamed/part_000:151-176), so the scanner follows spec
section 4.4: a plain byte is emitted as itself; `\\` emits 0x5C; `\xHH`
emits the byte HH when both characters are hex digits and otherwise fails
with InvalidHex, whose reported location follows the header contract
(err_info points at "XY...", the first character of the two-character hex
code); `\` before any other byte fails with InvalidEscape at that byte; a
`\` or `\x` cut off by the end of input fails with UnexpectedEnd.  `pos`
is the offset of the current byte in the original input. -/
def parseAux (pos : Nat) : List Nat → Except ParseError (List Nat)
  | [] => .ok []
  | c :: rest =>
    if c = 92 then
      match rest with
      | [] => .error .unexpectedEnd
      | d :: rest2 =>
        if d = 92 then (parseAux (pos + 2) rest2).map (fun l => 92 :: l)
        else if d = 120 then
          match rest2 with
          | c1 :: c2 :: rest3 =>
            if Thingy.isHexDigit c1 && Thingy.isHexDigit c2 then
              (parseAux (pos + 4) rest3).map (fun l => (16 * hexNib c1 + hexNib c2) :: l)
            else .error (.invalidHex (pos + 2))
          | _ => .error .unexpectedEnd
        else .error (.invalidEscape (pos + 1))
    else (parseAux (pos + 1) rest).map (fun l => c :: l)

/-- Modelled from the spec: compile(input) of spec sections 4.4 and 6. -/
def parseSearchString (s : List Nat) : Except ParseError (List Nat) :=
  parseAux 0 s

example : parseSearchString [97, 98] = .ok [97, 98] := by rfl
example : parseSearchString [97, 98, 92, 120, 52, 49, 92, 92, 99] =
    .ok [97, 98, 65, 92, 99] := by rfl
example : parseSearchString [92, 120, 90, 90] = .error (.invalidHex 2) := by rfl
example : parseSearchString [97, 92] = .error .unexpectedEnd := by rfl
example : parseSearchString [92, 113] = .error (.invalidEscape 1) := by rfl

/-- A successfully parsed prefix composes: the scan of `s ++ s2` consumes
`s` exactly as the scan of `s` alone did and continues into `s2` at
offset `pos + s.length`. -/
lemma parseAux_append {pos : Nat} {s : List Nat} {out : List Nat}
    (h : parseAux pos s = .ok out) (s2 : List Nat) :
    parseAux pos (s ++ s2) = (parseAux (pos + s.length) s2).map (fun l => out ++ l) := by
  induction pos, s using parseAux.induct generalizing out with
  | case1 pos =>
    simp only [parseAux] at h
    cases h
    cases hr : parseAux (pos + 0) s2 <;>
      simp_all [List.nil_append, Except.map]
  | case2 pos =>
    cases h
  | case3 pos rest2 ih =>
    rw [show parseAux pos (92 :: 92 :: rest2) =
          (parseAux (pos + 2) rest2).map (fun l => 92 :: l) from by
        rw [parseAux.eq_def]; exact rfl] at h
    cases hr : parseAux (pos + 2) rest2 with
    | error e =>
      rw [hr] at h
      cases h
    | ok out2 =>
      rw [hr] at h
      simp only [Except.map] at h
      cases h
      have ih' := ih hr
      rw [show (92 :: 92 :: rest2) ++ s2 = 92 :: 92 :: (rest2 ++ s2) from rfl,
        show parseAux pos (92 :: 92 :: (rest2 ++ s2)) =
            (parseAux (pos + 2) (rest2 ++ s2)).map (fun l => 92 :: l) from by
          rw [parseAux.eq_def]; exact rfl]
      rw [ih']
      simp only [List.length_cons]
      rw [show pos + 2 + rest2.length = pos + (rest2.length + 1 + 1) by omega]
      cases hr2 : parseAux (pos + (rest2.length + 1 + 1)) s2 <;> simp [Except.map]
  | case4 pos c1 c2 rest3 hhex h120 ih =>
    rw [show parseAux pos (92 :: 120 :: c1 :: c2 :: rest3) =
          (parseAux (pos + 4) rest3).map
            (fun l => (16 * hexNib c1 + hexNib c2) :: l) from by
        rw [parseAux.eq_def]; simp only [hhex, if_true]; try exact rfl] at h
    cases hr : parseAux (pos + 4) rest3 with
    | error e =>
      rw [hr] at h
      cases h
    | ok out2 =>
      rw [hr] at h
      simp only [Except.map] at h
      cases h
      have ih' := ih hr
      rw [show (92 :: 120 :: c1 :: c2 :: rest3) ++ s2 =
            92 :: 120 :: c1 :: c2 :: (rest3 ++ s2) from rfl,
        show parseAux pos (92 :: 120 :: c1 :: c2 :: (rest3 ++ s2)) =
            (parseAux (pos + 4) (rest3 ++ s2)).map
              (fun l => (16 * hexNib c1 + hexNib c2) :: l) from by
          rw [parseAux.eq_def]; simp only [hhex, if_true]; try exact rfl]
      rw [ih']
      simp only [List.length_cons]
      rw [show pos + 4 + rest3.length = pos + (rest3.length + 1 + 1 + 1 + 1) by omega]
      cases hr2 : parseAux (pos + (rest3.length + 1 + 1 + 1 + 1)) s2 <;> simp [Except.map]
  | case5 pos c1 c2 rest3 hhex h120 =>
    rw [show parseAux pos (92 :: 120 :: c1 :: c2 :: rest3) =
          .error (.invalidHex (pos + 2)) from by
        rw [parseAux.eq_def]; simp only [hhex, if_false]; try exact rfl] at h
    cases h
  | case6 pos rest2 hshape h120 =>
    rcases rest2 with _ | ⟨c1, _ | ⟨c2, r3⟩⟩
    · cases h
    · cases h
    · exact absurd rfl (hshape c1 c2 r3)
  | case7 pos d rest2 hd92 hd120 =>
    rw [show parseAux pos (92 :: d :: rest2) = .error (.invalidEscape (pos + 1)) from by
        rw [parseAux.eq_def]; simp only [hd92, hd120, if_false]; try exact rfl] at h
    cases h
  | case8 pos d rest2 hd ih =>
    rw [show parseAux pos (d :: rest2) =
          (parseAux (pos + 1) rest2).map (fun l => d :: l) from by
        rw [parseAux.eq_def]; simp only [hd, if_false]; try exact rfl] at h
    cases hr : parseAux (pos + 1) rest2 with
    | error e =>
      rw [hr] at h
      cases h
    | ok out2 =>
      rw [hr] at h
      simp only [Except.map] at h
      cases h
      have ih' := ih hr
      rw [show (d :: rest2) ++ s2 = d :: (rest2 ++ s2) from rfl,
        show parseAux pos (d :: (rest2 ++ s2)) =
            (parseAux (pos + 1) (rest2 ++ s2)).map (fun l => d :: l) from by
          rw [parseAux.eq_def]; simp only [hd, if_false]; try exact rfl]
      rw [ih']
      simp only [List.length_cons]
      rw [show pos + 1 + rest2.length = pos + (rest2.length + 1) by omega]
      cases hr2 : parseAux (pos + (rest2.length + 1)) s2 <;> simp [Except.map]

/-- C7 counterexample: for the input "\xAZ" the first hex character 'A'
is valid and the second, 'Z' at offset 3, is the offending one, yet the
reported InvalidHex location is offset 2, the start of the two-character
hex code, as the err_info contract of src/unnamed/part_000:169 specifies
("pointer to XY..."), not the offending character itself. -/
theorem c7_invalid_hex_location_counterexample :
    parseSearchString [92, 120, 65, 90] = .error (.invalidHex 2) ∧
      parseSearchString [92, 120, 65, 90] ≠ .error (.invalidHex 3) := by
  refine ⟨rfl, ?_⟩
  intro h
  rw [show parseSearchString [92, 120, 65, 90] = .error (.invalidHex 2) from rfl] at h
  injection h with h1
  injection h1 with h2
  exact absurd h2 (by omega)

/-- C7 (amended): whenever the scanner reaches a `\x` escape in which
either of the two following characters is not a hex digit, compile fails
with InvalidHex and the reported location is the first character of the
two-character hex code (which is the offending character itself exactly
when the first of the two is the invalid one). -/
theorem c7_invalid_hex_located (pre out : List Nat)
    (hpre : parseSearchString pre = .ok out) (c1 c2 : Nat) (rest : List Nat)
    (hbad : ¬(Thingy.isHexDigit c1 = true ∧ Thingy.isHexDigit c2 = true)) :
    parseSearchString (pre ++ 92 :: 120 :: c1 :: c2 :: rest) =
      .error (.invalidHex (pre.length + 2)) := by
  have hb : ¬((Thingy.isHexDigit c1 && Thingy.isHexDigit c2) = true) := by
    simp only [Bool.and_eq_true]
    exact hbad
  unfold parseSearchString at hpre ⊢
  rw [parseAux_append hpre]
  rw [show parseAux (0 + pre.length) (92 :: 120 :: c1 :: c2 :: rest) =
        .error (.invalidHex (0 + pre.length + 2)) from by
      rw [parseAux.eq_def]; simp only [hb, if_false]; try exact rfl]
  simp [Except.map]

theorem c7_invalid_hex_located_witness :
    parseSearchString [97, 92, 120, 90, 90] = .error (.invalidHex 3) :=
  c7_invalid_hex_located [97] [97] (by rfl) 90 90 [] (by decide)

/-- Modelled from the spec: the EditAction variants of spec section 3
(the implementation behind src/unnamed/part_000:277 is not under src/).
Every ByteBuffer mutator of section 4.1 touches a single byte, so each
action carries single bytes. -/
inductive EditAction where
  | insertA (off : Nat) (b : Nat)
  | deleteA (off : Nat) (b : Nat)
  | replaceA (off : Nat) (oldb : Nat) (newb : Nat)
deriving DecidableEq, Repr

/-- Modelled from the spec: the editing session state the undo claim
speaks about - the buffer bytes, the dirty flag and the two action
stacks of spec sections 3 and 4.2. -/
structure EState where
  buf : List Nat
  dirty : Bool
  undoList : List EditAction
  redoList : List EditAction
deriving DecidableEq, Repr

/-- Insert one byte at offset `o`, shifting trailing bytes up
(spec section 4.1, insert_at). -/
def insertAt (l : List Nat) (o : Nat) (b : Nat) : List Nat :=
  l.take o ++ b :: l.drop o

/-- Remove the byte at offset `o`, shifting trailing bytes down
(spec section 4.1, delete_at). -/
def removeAt (l : List Nat) (o : Nat) : List Nat :=
  l.take o ++ l.drop (o + 1)

/-- Modelled from the spec: the four successful ByteBuffer mutations of
spec section 4.1, as recorded into EditHistory. -/
inductive Mut where
  | insert (off : Nat) (b : Nat) (after : Bool)
  | delete (off : Nat)
  | replace (off : Nat) (b : Nat)
  | increment (off : Nat) (delta : Int)

/-- Modelled from the spec: applying one mutation (spec sections 4.1 and
4.2): on success the buffer is updated, `dirty` is set, the action is
recorded on the undo stack and the redo stack is cleared; an out-of-range
offset fails (`none`). `increment_at` wraps modulo 256 and is recorded as
a Replace. -/
def applyMut (s : EState) : Mut → Option EState
  | .insert off b after =>
    let o := if after then off + 1 else off
    if o ≤ s.buf.length then
      some { buf := insertAt s.buf o b, dirty := true,
             undoList := .insertA o b :: s.undoList, redoList := [] }
    else none
  | .delete off =>
    if h : off < s.buf.length then
      some { buf := removeAt s.buf off, dirty := true,
             undoList := .deleteA off (s.buf.get ⟨off, h⟩) :: s.undoList, redoList := [] }
    else none
  | .replace off b =>
    if h : off < s.buf.length then
      some { buf := s.buf.set off b, dirty := true,
             undoList := .replaceA off (s.buf.get ⟨off, h⟩) b :: s.undoList, redoList := [] }
    else none
  | .increment off delta =>
    if h : off < s.buf.length then
      let old := s.buf.get ⟨off, h⟩
      let newb := (((old : Int) + delta) % 256).toNat
      some { buf := s.buf.set off newb, dirty := true,
             undoList := .replaceA off old newb :: s.undoList, redoList := [] }
    else none

/-- Modelled from the spec: the structural inverse applied by undo (spec
section 4.2): Insert deletes the same span, Delete re-inserts the removed
bytes at the same offset, Replace writes back the old bytes. -/
def applyInverse (a : EditAction) (l : List Nat) : List Nat :=
  match a with
  | .insertA off _ => removeAt l off
  | .deleteA off b => insertAt l off b
  | .replaceA off oldb _ => l.set off oldb

/-- Modelled from the spec: undo() (spec section 4.2): NoMoreUndo
(`none`) on an empty undo stack, else pop the top action, apply its
structural inverse to the buffer and push the action onto the redo
stack. -/
def undo1 (s : EState) : Option EState :=
  match s.undoList with
  | [] => none
  | a :: rest =>
    some { buf := applyInverse a s.buf, dirty := s.dirty,
           undoList := rest, redoList := a :: s.redoList }

/-- A sequence of mutations, all of which must succeed. -/
def applyMuts (s : EState) : List Mut → Option EState
  | [] => some s
  | m :: rest => (applyMut s m).bind (fun s1 => applyMuts s1 rest)

/-- n undo() calls in sequence, all of which must succeed. -/
def undoN : Nat → EState → Option EState
  | 0, s => some s
  | n + 1, s => (undo1 s).bind (undoN n)

lemma removeAt_insertAt (l : List Nat) (o : Nat) (b : Nat) (h : o ≤ l.length) :
    removeAt (insertAt l o b) o = l := by
  unfold removeAt insertAt
  have h1 : (l.take o).length = o := by simp [Nat.min_eq_left h]
  rw [List.take_left' h1]
  rw [show l.take o ++ b :: l.drop o = (l.take o ++ [b]) ++ l.drop o by simp]
  rw [List.drop_left' (by simp [h1])]
  exact List.take_append_drop o l

lemma insertAt_removeAt (l : List Nat) (o : Nat) (h : o < l.length) :
    insertAt (removeAt l o) o (l.get ⟨o, h⟩) = l := by
  unfold insertAt removeAt
  have h1 : (l.take o).length = o := by simp [Nat.min_eq_left (Nat.le_of_lt h)]
  rw [List.take_left' h1, List.drop_left' h1, List.get_eq_getElem]
  rw [List.getElem_cons_drop l o h]
  exact List.take_append_drop o l

lemma set_get_self : ∀ (l : List Nat) (o : Nat) (h : o < l.length),
    l.set o (l.get ⟨o, h⟩) = l
  | _ :: _, 0, _ => rfl
  | a :: l, o + 1, h =>
    congrArg (fun t => a :: t) (set_get_self l o (Nat.lt_of_succ_lt_succ h))

lemma set_set_get (l : List Nat) (o : Nat) (b : Nat) (h : o < l.length) :
    (l.set o b).set o (l.get ⟨o, h⟩) = l := by
  rw [List.set_set]
  exact set_get_self l o h

/-- Undo after one successful mutation restores the buffer and the undo
stack, from any state that agrees with the mutated one on those two
components. -/
lemma undo1_applyMut {s s1 : EState} {m : Mut} (h : applyMut s m = some s1)
    {t : EState} (hb : t.buf = s1.buf) (hu : t.undoList = s1.undoList) :
    ∃ u, undo1 t = some u ∧ u.buf = s.buf ∧ u.undoList = s.undoList := by
  match m with
  | .insert off b after =>
    by_cases hle : (if after then off + 1 else off) ≤ s.buf.length
    · have hm : applyMut s (.insert off b after) =
          some { buf := insertAt s.buf (if after then off + 1 else off) b,
                 dirty := true,
                 undoList := .insertA (if after then off + 1 else off) b :: s.undoList,
                 redoList := [] } := by
        simp [applyMut, hle]
      rw [hm] at h
      cases h
      have hundo : undo1 t =
          some { buf := applyInverse (.insertA (if after then off + 1 else off) b) t.buf,
                 dirty := t.dirty, undoList := s.undoList,
                 redoList := .insertA (if after then off + 1 else off) b :: t.redoList } := by
        simp [undo1, hu]
      refine ⟨_, hundo, ?_, by rfl⟩
      simp only [applyInverse, hb]
      exact removeAt_insertAt s.buf _ b hle
    · have hm : applyMut s (.insert off b after) = none := by simp [applyMut, hle]
      rw [hm] at h
      cases h
  | .delete off =>
    by_cases hlt : off < s.buf.length
    · have hm : applyMut s (.delete off) =
          some { buf := removeAt s.buf off, dirty := true,
                 undoList := .deleteA off (s.buf.get ⟨off, hlt⟩) :: s.undoList,
                 redoList := [] } := by
        simp [applyMut, hlt]
      rw [hm] at h
      cases h
      have hundo : undo1 t =
          some { buf := applyInverse (.deleteA off (s.buf.get ⟨off, hlt⟩)) t.buf,
                 dirty := t.dirty, undoList := s.undoList,
                 redoList := .deleteA off (s.buf.get ⟨off, hlt⟩) :: t.redoList } := by
        simp [undo1, hu]
      refine ⟨_, hundo, ?_, by rfl⟩
      simp only [applyInverse, hb]
      exact insertAt_removeAt s.buf off hlt
    · have hm : applyMut s (.delete off) = none := by simp [applyMut, hlt]
      rw [hm] at h
      cases h
  | .replace off b =>
    by_cases hlt : off < s.buf.length
    · have hm : applyMut s (.replace off b) =
          some { buf := s.buf.set off b, dirty := true,
                 undoList := .replaceA off (s.buf.get ⟨off, hlt⟩) b :: s.undoList,
                 redoList := [] } := by
        simp [applyMut, hlt]
      rw [hm] at h
      cases h
      have hundo : undo1 t =
          some { buf := applyInverse (.replaceA off (s.buf.get ⟨off, hlt⟩) b) t.buf,
                 dirty := t.dirty, undoList := s.undoList,
                 redoList := .replaceA off (s.buf.get ⟨off, hlt⟩) b :: t.redoList } := by
        simp [undo1, hu]
      refine ⟨_, hundo, ?_, by rfl⟩
      simp only [applyInverse, hb]
      exact set_set_get s.buf off b hlt
    · have hm : applyMut s (.replace off b) = none := by simp [applyMut, hlt]
      rw [hm] at h
      cases h
  | .increment off delta =>
    by_cases hlt : off < s.buf.length
    · have hm : applyMut s (.increment off delta) =
          some { buf := s.buf.set off
                   ((((s.buf.get ⟨off, hlt⟩ : Nat) : Int) + delta) % 256).toNat,
                 dirty := true,
                 undoList := .replaceA off (s.buf.get ⟨off, hlt⟩)
                   ((((s.buf.get ⟨off, hlt⟩ : Nat) : Int) + delta) % 256).toNat :: s.undoList,
                 redoList := [] } := by
        simp [applyMut, hlt]
      rw [hm] at h
      cases h
      have hundo : undo1 t =
          some { buf := applyInverse
                   (.replaceA off (s.buf.get ⟨off, hlt⟩)
                     ((((s.buf.get ⟨off, hlt⟩ : Nat) : Int) + delta) % 256).toNat) t.buf,
                 dirty := t.dirty, undoList := s.undoList,
                 redoList := .replaceA off (s.buf.get ⟨off, hlt⟩)
                   ((((s.buf.get ⟨off, hlt⟩ : Nat) : Int) + delta) % 256).toNat :: t.redoList } := by
        simp [undo1, hu]
      refine ⟨_, hundo, ?_, by rfl⟩
      simp only [applyInverse, hb]
      exact set_set_get s.buf off _ hlt
    · have hm : applyMut s (.increment off delta) = none := by simp [applyMut, hlt]
      rw [hm] at h
      cases h

lemma undoN_succ_right (n : Nat) (s : EState) :
    undoN (n + 1) s = (undoN n s).bind undo1 := by
  induction n generalizing s with
  | zero =>
    cases h1 : undo1 s <;> simp [undoN, h1]
  | succ n ih =>
    cases h1 : undo1 s with
    | none => simp [undoN, h1]
    | some s2 =>
      have lhs : undoN (n + 1 + 1) s = undoN (n + 1) s2 := by
        simp [undoN, h1]
      have rhs : undoN (n + 1) s = undoN n s2 := by
        simp [undoN, h1]
      rw [lhs, rhs]
      exact ih s2

lemma undoN_applyMuts : ∀ (ms : List Mut) (s s' : EState), applyMuts s ms = some s' →
    ∃ u, undoN ms.length s' = some u ∧ u.buf = s.buf ∧ u.undoList = s.undoList := by
  intro ms
  induction ms with
  | nil =>
    intro s s' h
    cases h
    exact ⟨s, rfl, rfl, rfl⟩
  | cons m rest ih =>
    intro s s' h
    simp only [applyMuts] at h
    cases hm : applyMut s m with
    | none =>
      rw [hm] at h
      cases h
    | some s1 =>
      rw [hm] at h
      obtain ⟨u, hu, hub, huu⟩ := ih s1 s' h
      rw [List.length_cons, undoN_succ_right, hu]
      obtain ⟨v, hv, hvb, hvu⟩ := undo1_applyMut hm hub huu
      exact ⟨v, hv, hvb, hvu⟩

/-- C8: for any editing-session state, any sequence of successful
mutations (insert, delete, replace or increment) followed by the same
number of undo() calls succeeds and returns the buffer content and length
exactly to the pre-sequence state. -/
theorem c8_undo_inverts_mutations (s : EState) (ms : List Mut) (s' : EState)
    (h : applyMuts s ms = some s') :
    ∃ u, undoN ms.length s' = some u ∧ u.buf = s.buf ∧
      u.buf.length = s.buf.length := by
  obtain ⟨u, hu, hub, _⟩ := undoN_applyMuts ms s s' h
  exact ⟨u, hu, hub, by rw [hub]⟩

theorem c8_undo_inverts_mutations_witness :
    ∃ u, undoN 4
        { buf := [8, 7, 3], dirty := true,
          undoList := [.replaceA 0 9 8, .replaceA 1 2 7, .deleteA 0 1, .insertA 1 9],
          redoList := [] } = some u ∧
      u.buf = [1, 2, 3] ∧ u.buf.length = ([1, 2, 3] : List Nat).length :=
  c8_undo_inverts_mutations
    { buf := [1, 2, 3], dirty := false, undoList := [], redoList := [] }
    [.insert 1 9 false, .delete 0, .replace 1 7, .increment 0 (-1)]
    { buf := [8, 7, 3], dirty := true,
      undoList := [.replaceA 0 9 8, .replaceA 1 2 7, .deleteA 0 1, .insertA 1 9],
      redoList := [] }
    (by decide)

end Editor
